import Mathlib

/-!
Shallow embedding of the workload/trait/scope application and scope-membership
reconciliation engine of the oam-kubernetes-runtime repository
(src/pkg/controller/oam/applicationconfiguration/apply.go).

Semi-structured Kubernetes documents (unstructured.Unstructured content) are
modelled as JSON-like trees; the crossplane-runtime fieldpath accessor is an
external collaborator of the repository (spec section 6), modelled here by
getPath/setPath with the documented semantics (get fails on a missing key or a
non-object intermediate; set creates missing intermediate objects and fails on
a non-object intermediate).  Storage writes (resource.Applicator.Apply and
client.Update) are modelled as always succeeding and are recorded in an event
trace; client.Get on a scope is modelled by lookup in an explicit scope store
and can fail.  Go runtime panics caused by the unchecked type assertions in
apply.go are modelled by a dedicated `crashed` outcome.
-/

namespace OamApply

/-- JSON-like value tree: the model of the content of an
unstructured Kubernetes document. -/
inductive JVal where
  | str : String → JVal
  | num : Int → JVal
  | boolv : Bool → JVal
  | null : JVal
  | arr : List JVal → JVal
  | obj : List (String × JVal) → JVal

/-- A document body (the top level of unstructured content is always a map). -/
abbrev Doc := List (String × JVal)

/-- Lookup of a key in an association list (Go map read). -/
def lookupK {κ α : Type} [DecidableEq κ] : List (κ × α) → κ → Option α
  | [], _ => none
  | (k0, v0) :: rest, k => if k0 = k then some v0 else lookupK rest k

/-- Setting a key in an association list (Go map write): replaces the
existing binding in place, or appends a fresh one. -/
def setEntries {κ α : Type} [DecidableEq κ] : List (κ × α) → κ → α → List (κ × α)
  | [], k, v => [(k, v)]
  | (k0, v0) :: rest, k, v =>
      if k0 = k then (k, v) :: rest else (k0, v0) :: setEntries rest k v

/-- Modelled from the spec: the Typed-Document Field Accessor's GetValue
(crossplane fieldpath, an external collaborator): walks field segments,
failing on a missing key or a non-object intermediate. -/
def getPathV : JVal → List String → Option JVal
  | v, [] => some v
  | .obj fs, k :: rest =>
      match lookupK fs k with
      | some v => getPathV v rest
      | none => none
  | _, _ :: _ => none

/-- Modelled from the spec: the Typed-Document Field Accessor's SetValue:
walks field segments, creating a missing intermediate as an empty object and
failing on a present non-object intermediate; an empty path is a parse error. -/
def setPathV : JVal → List String → JVal → Option JVal
  | _, [], _ => none
  | .obj fs, [k], v => some (.obj (setEntries fs k v))
  | .obj fs, k :: k2 :: rest, v =>
      match setPathV (match lookupK fs k with | some c => c | none => .obj []) (k2 :: rest) v with
      | some c2 => some (.obj (setEntries fs k c2))
      | none => none
  | _, _ :: _, _ => none

/-- GetValue on a document body. -/
def getPath (d : Doc) (p : List String) : Option JVal :=
  getPathV (.obj d) p

/-- SetValue on a document body. -/
def setPath (d : Doc) (p : List String) (v : JVal) : Option Doc :=
  match setPathV (.obj d) p v with
  | some (.obj d2) => some d2
  | _ => none

/-- The string at a path, defaulting to the empty string: the behaviour of the
unstructured accessors GetAPIVersion/GetKind/GetName on missing or
mistyped fields. -/
def docStrAt (d : Doc) (p : List String) : String :=
  match getPath d p with
  | some (.str s) => s
  | _ => ""

def docApiVersion (d : Doc) : String := docStrAt d ["apiVersion"]

def docKind (d : Doc) : String := docStrAt d ["kind"]

def docName (d : Doc) : String := docStrAt d ["metadata", "name"]

/-- runtimev1alpha1.TypedReference (the UID field, never set by this code and
omitted from its JSON when empty, is not modelled). -/
structure TypedReference where
  apiVersion : String
  kind : String
  name : String
deriving DecidableEq

/-- The identity triple of a document. -/
def docRef (d : Doc) : TypedReference :=
  ⟨docApiVersion d, docKind d, docName d⟩

/-- The JSON encoding of a TypedReference, as produced by the fieldpath
SetValue JSON round-trip (`json.Marshal` then `json.Unmarshal`). -/
def refToJSON (r : TypedReference) : JVal :=
  .obj [("apiVersion", .str r.apiVersion), ("kind", .str r.kind), ("name", .str r.name)]

/-- Go comparison `someString == ref[key]` where the right side is an
`interface\x7b\x7d`: true exactly when the dynamic value is an equal string
(a missing key yields nil, which is unequal to any string). -/
def isStrEq : Option JVal → String → Bool
  | some (.str s), t => s == t
  | _, _ => false

/-- The structural match performed on one membership-list entry
(apply.go lines 154-156 and 197-199). -/
def refEntryMatches (w : TypedReference) (fs : List (String × JVal)) : Bool :=
  isStrEq (lookupK fs "apiVersion") w.apiVersion &&
  isStrEq (lookupK fs "kind") w.kind &&
  isStrEq (lookupK fs "name") w.name

/-- Whether a membership-list element matches a TypedReference (a non-map
element never matches; the Go code panics on it instead, see findRefIdx). -/
def entryMatchesB (w : TypedReference) : JVal → Bool
  | .obj fs => refEntryMatches w fs
  | _ => false

/-- The scan loops of applyScope (apply.go 152-160) and applyScopeRemoval
(apply.go 195-203): walk the membership list, stopping at the first
structurally matching entry; the unchecked assertion
`item.(map[string]interface\x7b\x7d)` panics on a non-map element reached
before any match.  `none` models the panic, `some none` a completed scan with
no match, `some (some i)` a match at index i. -/
def findRefIdx (w : TypedReference) : List JVal → Option (Option Nat)
  | [] => some none
  | .obj fs :: rest =>
      if refEntryMatches w fs then some (some 0)
      else
        match findRefIdx w rest with
        | some (some i) => some (some (i + 1))
        | r => r
  | _ :: _ => none

/-- Number of membership-list entries structurally equal to a reference. -/
def countMatching (refs : List JVal) (w : TypedReference) : Nat :=
  refs.countP (entryMatchesB w)

/-- The removal in applyScopeRemoval (apply.go 206-208): move the last
element into slot i, then truncate. -/
def swapRemove (l : List JVal) (i : Nat) : List JVal :=
  (l.set i (l.getLastD .null)).take (l.length - 1)

/-- v1alpha2.WorkloadScope: one prior scope membership record. -/
structure WorkloadScope where
  reference : TypedReference

/-- v1alpha2.WorkloadStatus: prior-status record of one workload and the
scopes it belonged to after the previous pass. -/
structure WorkloadStatus where
  reference : TypedReference
  scopes : List WorkloadScope

/-- Modelled from the spec (section 3) and the uses in apply.go: the
Workload element of the desired-state set (its defining file is outside the
given sources) — the workload document with its trait and scope documents. -/
structure Workload where
  workload : Doc
  traits : List Doc
  scopes : List Doc

/-- Modelled from the spec (sections 4.2 and 6): the part of a
TraitDefinition this engine reads — its Spec.WorkloadRefPath, here already
parsed into field segments; an empty path means no stamp is requested
(the Go code checks `len(workloadRefPath) != 0`). -/
structure TraitDefinition where
  workloadRefPath : List String

/-- The errors produced by apply.go, each carrying the identity arguments of
its format string.  The two storage-write failures (errFmtApplyWorkload and
errFmtApplyTrait) cannot arise in this model because writes are modelled as
always succeeding. -/
inductive AErr where
  | noComponent
  | setWorkloadRefFailed (objName wlName : String)
  | getTraitDefinitionFailed (apiVersion kind name : String)
  | applyScopeFailed (apiVersion kind name : String)
deriving DecidableEq

/-- Outcome of a fragment of the engine: a value, a returned Go error, or a
runtime panic from an unchecked type assertion. -/
inductive Res (α : Type) where
  | ok : α → Res α
  | err : AErr → Res α
  | crashed : Res α

/-- Observable storage operations, in program order, plus a marker recording
the call of dereferenceScope (apply.go line 102). -/
inductive Event where
  | wroteWorkload (d : Doc)
  | wroteTrait (d : Doc)
  | updatedScope (d : Doc)
  | gotScope (r : TypedReference)
  | removedFromScope (d : Doc)
  | derefStarted

def Event.isDeref : Event → Bool
  | .derefStarted => true
  | _ => false

def Event.isWorkloadWrite : Event → Bool
  | .wroteWorkload _ => true
  | _ => false

def Event.isTraitWrite : Event → Bool
  | .wroteTrait _ => true
  | _ => false

def Event.isScopeJoin : Event → Bool
  | .updatedScope _ => true
  | _ => false

/-- The scope objects reachable by rawClient.Get, keyed by identity (all
workloads of a pass share one namespace, so the namespace is left implicit). -/
abbrev ScopeStore := List (TypedReference × Doc)

def storeGet (store : ScopeStore) (r : TypedReference) : Option Doc :=
  lookupK store r

def storeSet (store : ScopeStore) (r : TypedReference) (d : Doc) : ScopeStore :=
  setEntries store r d

/-- workloads.applyScope (apply.go 147-174).  Returns `ok none` for the
no-write early return, `ok (some s2)` when the updated scope document s2 was
written, an error when SetValue fails, and `crashed` when a type assertion
panics.  The rawClient.Update write is modelled as always succeeding. -/
def applyScope (wlName : String) (s : Doc) (workloadRef : TypedReference) : Res (Option Doc) :=
  match getPath s ["spec", "workloadRefs"] with
  | some (.arr refs) =>
      match findRefIdx workloadRef refs with
      | none => .crashed
      | some (some _) => .ok none
      | some none =>
          match setPath s ["spec", "workloadRefs"] (.arr (refs ++ [refToJSON workloadRef])) with
          | some s2 => .ok (some s2)
          | none => .err (.setWorkloadRefFailed (docName s) wlName)
  | some _ => .crashed
  | none =>
      match setPath s ["spec", "workloadRefs"] (.arr [refToJSON workloadRef]) with
      | some s2 => .ok (some s2)
      | none => .err (.setWorkloadRefFailed (docName s) wlName)

/-- The comparison of a desired scope document against a prior scope
reference (apply.go 131-133). -/
def scopeMatchesRef (s : Doc) (r : TypedReference) : Bool :=
  docApiVersion s == r.apiVersion && docKind s == r.kind && docName s == r.name

/-- findDereferencedScopes (apply.go 126-145): the prior scope records whose
reference matches no desired scope document. -/
def findDereferencedScopes : List WorkloadScope → List Doc → List WorkloadScope
  | [], _ => []
  | ss :: rest, scopes =>
      if scopes.any (fun s => scopeMatchesRef s ss.reference) then
        findDereferencedScopes rest scopes
      else
        ss :: findDereferencedScopes rest scopes

/-- The comparison of a prior workload reference against a desired workload
(apply.go 109-111). -/
def refMatchesWorkload (r : TypedReference) (wl : Workload) : Bool :=
  r.apiVersion == docApiVersion wl.workload &&
  r.kind == docKind wl.workload &&
  r.name == docName wl.workload

/-- The toBeDeferenced computation in dereferenceScope (apply.go 107-114):
start from all prior scopes and replace by the diff at every matching
desired workload (the last match wins). -/
def toBeDereferenced (st : WorkloadStatus) (w : List Workload) : List WorkloadScope :=
  w.foldl
    (fun acc wl =>
      if refMatchesWorkload st.reference wl then findDereferencedScopes st.scopes wl.scopes
      else acc)
    st.scopes

/-- workloads.applyScopeRemoval (apply.go 176-222).  Returns the events, the
updated scope store, and the outcome; rawClient.Get is the store lookup, and
the two unchecked type assertions are modelled as `crashed`. -/
def applyScopeRemoval (store : ScopeStore) (ws : WorkloadStatus) (s : WorkloadScope) :
    List Event × ScopeStore × Res Unit :=
  let workloadRef : TypedReference :=
    ⟨ws.reference.apiVersion, ws.reference.kind, ws.reference.name⟩
  match storeGet store s.reference with
  | none =>
      ([.gotScope s.reference], store,
        .err (.applyScopeFailed s.reference.apiVersion s.reference.kind s.reference.name))
  | some scopeObject =>
      match getPath scopeObject ["spec", "workloadRefs"] with
      | some (.arr refs) =>
          match findRefIdx workloadRef refs with
          | none => ([.gotScope s.reference], store, .crashed)
          | some none => ([.gotScope s.reference], store, .ok ())
          | some (some i) =>
              match setPath scopeObject ["spec", "workloadRefs"] (.arr (swapRemove refs i)) with
              | some s2 =>
                  ([.gotScope s.reference, .removedFromScope s2],
                    storeSet store s.reference s2, .ok ())
              | none =>
                  ([.gotScope s.reference], store,
                    .err (.setWorkloadRefFailed s.reference.name ws.reference.name))
      | some _ => ([.gotScope s.reference], store, .crashed)
      | none => ([.gotScope s.reference], store, .ok ())

/-- The inner removal loop of dereferenceScope (apply.go 116-120): remove
each candidate in order, stopping at the first error. -/
def removeAll (store : ScopeStore) (st : WorkloadStatus) :
    List WorkloadScope → List Event × ScopeStore × Res Unit
  | [] => ([], store, .ok ())
  | s :: rest =>
      match applyScopeRemoval store st s with
      | (evs, store2, .ok _) =>
          match removeAll store2 st rest with
          | (evs2, store3, r2) => (evs ++ evs2, store3, r2)
      | (evs, store2, r) => (evs, store2, r)

/-- workloads.dereferenceScope (apply.go 105-124). -/
def dereferenceScope (store : ScopeStore) :
    List WorkloadStatus → List Workload → List Event × ScopeStore × Res Unit
  | [], _ => ([], store, .ok ())
  | st :: rest, w =>
      match removeAll store st (toBeDereferenced st w) with
      | (evs, store2, .ok _) =>
          match dereferenceScope store2 rest w with
          | (evs2, store3, r2) => (evs ++ evs2, store3, r2)
      | (evs, store2, r) => (evs, store2, r)

/-- The per-workload trait loop (apply.go 78-95): for each trait, fetch its
definition through the provider oracle `fetchDef` (util.FetchTraitDefinition
is outside the given sources; `none` models its error), stamp the workload
reference at the definition's field path when one is requested, and apply the
trait.  Returns the applied (stamped) trait documents in order, together with
the first error. -/
def processTraits (fetchDef : Doc → Option TraitDefinition) (workloadRef : TypedReference)
    (wlName : String) : List Doc → List Doc × Option AErr
  | [] => ([], none)
  | t :: rest =>
      match fetchDef t with
      | none => ([], some (.getTraitDefinitionFailed (docApiVersion t) (docKind t) (docName t)))
      | some td =>
          if td.workloadRefPath.isEmpty then
            match processTraits fetchDef workloadRef wlName rest with
            | (ds, e) => (t :: ds, e)
          else
            match setPath t td.workloadRefPath (refToJSON workloadRef) with
            | none => ([], some (.setWorkloadRefFailed (docName t) wlName))
            | some t2 =>
                match processTraits fetchDef workloadRef wlName rest with
                | (ds, e) => (t2 :: ds, e)

/-- The TypedReference built from an applied workload (apply.go 72-76). -/
def workloadRefOf (wl : Workload) : TypedReference :=
  ⟨docApiVersion wl.workload, docKind wl.workload, docName wl.workload⟩

/-- The events of one fully processed workload: its own upsert followed by
its applied trait documents. -/
def workloadEvents (fetchDef : Doc → Option TraitDefinition) (wl : Workload) : List Event :=
  .wroteWorkload wl.workload ::
    (processTraits fetchDef (workloadRefOf wl) (docName wl.workload) wl.traits).1.map .wroteTrait

/-- The per-workload loop of Apply (apply.go 68-100).  The third component is
`none` when the loop ran to completion, and `some r` when the body returned
out of Apply — which happens on any error and, crucially, on the first scope
of the first workload whose scope list is non-empty (the
`return a.applyScope(...)` inside the scope loop at apply.go 97-99). -/
def applyLoop (fetchDef : Doc → Option TraitDefinition) :
    List Workload → ScopeStore → List Event × ScopeStore × Option (Res Unit)
  | [], store => ([], store, none)
  | wl :: rest, store =>
      match processTraits fetchDef (workloadRefOf wl) (docName wl.workload) wl.traits with
      | (tds, terr) =>
          let evs := Event.wroteWorkload wl.workload :: tds.map Event.wroteTrait
          match terr with
          | some e => (evs, store, some (.err e))
          | none =>
              match wl.scopes with
              | [] =>
                  match applyLoop fetchDef rest store with
                  | (evs2, store2, r) => (evs ++ evs2, store2, r)
              | s :: _ =>
                  match applyScope (docName wl.workload) s (workloadRefOf wl) with
                  | .ok none => (evs, store, some (.ok ()))
                  | .ok (some s2) =>
                      (evs ++ [.updatedScope s2], storeSet store (docRef s2) s2, some (.ok ()))
                  | .err e => (evs, store, some (.err e))
                  | .crashed => (evs, store, some .crashed)

/-- The outcome of one pass: the trace of storage operations, the final scope
store, and the returned result. -/
structure ApplyOut where
  trace : List Event
  store : ScopeStore
  result : Res Unit

/-- workloads.Apply (apply.go 62-103): reject an empty workload set, run the
per-workload loop, and — only when the loop ran to completion — call
dereferenceScope on the full prior status. -/
def Apply (fetchDef : Doc → Option TraitDefinition) (store : ScopeStore)
    (status : List WorkloadStatus) (w : List Workload) : ApplyOut :=
  match w with
  | [] => ⟨[], store, .err .noComponent⟩
  | _ :: _ =>
      match applyLoop fetchDef w store with
      | (evs, store2, some r) => ⟨evs, store2, r⟩
      | (evs, store2, none) =>
          match dereferenceScope store2 status w with
          | (evs2, store3, r) => ⟨evs ++ Event.derefStarted :: evs2, store3, r⟩

/-! ### Association-list and field-path lemmas -/

theorem lookupK_setEntries_self {κ α : Type} [DecidableEq κ] (fs : List (κ × α)) (k : κ) (v : α) :
    lookupK (setEntries fs k v) k = some v := by
  induction fs with
  | nil => simp [setEntries, lookupK]
  | cons kv rest ih =>
      obtain ⟨k0, v0⟩ := kv
      by_cases h : k0 = k
      · simp [setEntries, h, lookupK]
      · simpa [setEntries, h, lookupK] using ih

theorem lookupK_setEntries_ne {κ α : Type} [DecidableEq κ] (fs : List (κ × α)) (k k2 : κ)
    (v : α) (hne : k2 ≠ k) : lookupK (setEntries fs k v) k2 = lookupK fs k2 := by
  induction fs with
  | nil =>
      simp only [setEntries, lookupK]
      rw [if_neg (fun h => hne h.symm)]
  | cons kv rest ih =>
      obtain ⟨k0, v0⟩ := kv
      by_cases h : k0 = k
      · subst h
        simp only [setEntries, if_pos rfl, lookupK]
        rw [if_neg (fun h2 => hne h2.symm), if_neg (fun h2 => hne h2.symm)]
      · simp only [setEntries, if_neg h, lookupK]
        by_cases h2 : k0 = k2
        · rw [if_pos h2, if_pos h2]
        · rw [if_neg h2, if_neg h2]
          exact ih

theorem setPathV_getPathV : ∀ (d : JVal) (p : List String) (v d2 : JVal),
    setPathV d p v = some d2 → getPathV d2 p = some v
  | _, [], _, _, h => by simp [setPathV] at h
  | .obj fs, [k], v, d2, h => by
      simp only [setPathV, Option.some.injEq] at h
      subst h
      simp [getPathV, lookupK_setEntries_self]
  | .obj fs, k :: k2 :: rest, v, d2, h => by
      simp only [setPathV] at h
      rcases hc :
          setPathV (match lookupK fs k with | some c => c | none => .obj []) (k2 :: rest) v with
        _ | c2
      · rw [hc] at h; exact absurd h (by simp)
      · rw [hc] at h
        simp only [Option.some.injEq] at h
        subst h
        simp only [getPathV, lookupK_setEntries_self]
        exact setPathV_getPathV _ (k2 :: rest) v c2 hc
  | .str _, _ :: _, _, _, h => by simp [setPathV] at h
  | .num _, _ :: _, _, _, h => by simp [setPathV] at h
  | .boolv _, _ :: _, _, _, h => by simp [setPathV] at h
  | .null, _ :: _, _, _, h => by simp [setPathV] at h
  | .arr _, _ :: _, _, _, h => by simp [setPathV] at h

theorem setPath_getPath {d : Doc} {p : List String} {v : JVal} {d2 : Doc}
    (h : setPath d p v = some d2) : getPath d2 p = some v := by
  unfold setPath at h
  rcases hs : setPathV (.obj d) p v with _ | x
  · rw [hs] at h; exact absurd h (by simp)
  · rw [hs] at h
    cases x with
    | obj fs =>
        simp only [Option.some.injEq] at h
        subst h
        exact setPathV_getPathV _ p v _ hs
    | str s => exact absurd h (by simp)
    | num n => exact absurd h (by simp)
    | boolv b => exact absurd h (by simp)
    | null => exact absurd h (by simp)
    | arr l => exact absurd h (by simp)

theorem getPath2_eq_of_obj {d : Doc} {k1 : String} {fs : List (String × JVal)}
    (h : lookupK d k1 = some (.obj fs)) (k2 : String) :
    getPath d [k1, k2] = lookupK fs k2 := by
  simp only [getPath, getPathV, h]
  rcases lookupK fs k2 with _ | v <;> simp [getPathV]

theorem getPath2_none_of_absent {d : Doc} {k1 : String}
    (h : lookupK d k1 = none) (k2 : String) : getPath d [k1, k2] = none := by
  simp [getPath, getPathV, h]

theorem getPath2_inv {d : Doc} {k1 k2 : String} {v : JVal}
    (h : getPath d [k1, k2] = some v) :
    ∃ fs, lookupK d k1 = some (.obj fs) ∧ lookupK fs k2 = some v := by
  rcases h1 : lookupK d k1 with _ | v1
  · rw [getPath2_none_of_absent h1 k2] at h
    exact absurd h (by simp)
  · cases v1 with
    | obj fs =>
        rw [getPath2_eq_of_obj h1 k2] at h
        exact ⟨fs, rfl, h⟩
    | str s => rw [show getPath d [k1, k2] = none from by simp [getPath, getPathV, h1]] at h
               exact absurd h (by simp)
    | num n => rw [show getPath d [k1, k2] = none from by simp [getPath, getPathV, h1]] at h
               exact absurd h (by simp)
    | boolv b => rw [show getPath d [k1, k2] = none from by simp [getPath, getPathV, h1]] at h
                 exact absurd h (by simp)
    | null => rw [show getPath d [k1, k2] = none from by simp [getPath, getPathV, h1]] at h
              exact absurd h (by simp)
    | arr l => rw [show getPath d [k1, k2] = none from by simp [getPath, getPathV, h1]] at h
               exact absurd h (by simp)

theorem setPath2_of_absent {d : Doc} {k1 : String} (h : lookupK d k1 = none)
    (k2 : String) (v : JVal) :
    setPath d [k1, k2] v = some (setEntries d k1 (.obj [(k2, v)])) := by
  simp [setPath, setPathV, h, setEntries]

theorem setPath2_of_obj {d : Doc} {k1 : String} {fs : List (String × JVal)}
    (h : lookupK d k1 = some (.obj fs)) (k2 : String) (v : JVal) :
    setPath d [k1, k2] v = some (setEntries d k1 (.obj (setEntries fs k2 v))) := by
  simp [setPath, setPathV, h]

/-- The spec slot of a document is settable: either absent or already an
object. -/
def objOrAbsent (d : Doc) (k : String) : Prop :=
  lookupK d k = none ∨ ∃ fs, lookupK d k = some (.obj fs)

theorem setPath2_total {d : Doc} {k1 : String} (h : objOrAbsent d k1) (k2 : String) (v : JVal) :
    ∃ d2, setPath d [k1, k2] v = some d2 := by
  rcases h with h | ⟨fs, h⟩
  · exact ⟨_, setPath2_of_absent h k2 v⟩
  · exact ⟨_, setPath2_of_obj h k2 v⟩

/-- Frame property of a two-segment SetValue: every other top-level key, and
every other key under the touched top-level key, reads the same afterwards. -/
theorem setPath2_unrelated {d : Doc} {k1 k2 : String} {v : JVal} {d2 : Doc}
    (h : setPath d [k1, k2] v = some d2) :
    (∀ k, k ≠ k1 → lookupK d2 k = lookupK d k) ∧
    (∀ k, k ≠ k2 → getPath d2 [k1, k] = getPath d [k1, k]) := by
  rcases h1 : lookupK d k1 with _ | v1
  · rw [setPath2_of_absent h1 k2 v] at h
    simp only [Option.some.injEq] at h
    subst h
    constructor
    · intro k hk
      exact lookupK_setEntries_ne d k1 k _ hk
    · intro k hk
      rw [getPath2_eq_of_obj (lookupK_setEntries_self d k1 _) k,
        getPath2_none_of_absent h1 k]
      simp [lookupK, Ne.symm hk]
  · cases v1 with
    | obj fs =>
        rw [setPath2_of_obj h1 k2 v] at h
        simp only [Option.some.injEq] at h
        subst h
        constructor
        · intro k hk
          exact lookupK_setEntries_ne d k1 k _ hk
        · intro k hk
          rw [getPath2_eq_of_obj (lookupK_setEntries_self d k1 _) k,
            getPath2_eq_of_obj h1 k]
          exact lookupK_setEntries_ne fs k2 k v hk
    | str s => rw [setPath] at h; simp [setPathV, h1, setPathV] at h
    | num n => rw [setPath] at h; simp [setPathV, h1, setPathV] at h
    | boolv b => rw [setPath] at h; simp [setPathV, h1, setPathV] at h
    | null => rw [setPath] at h; simp [setPathV, h1, setPathV] at h
    | arr l => rw [setPath] at h; simp [setPathV, h1, setPathV] at h

/-! ### Membership-scan and removal lemmas -/

/-- A membership list all of whose elements are maps. -/
def allObj (refs : List JVal) : Prop := ∀ x ∈ refs, ∃ fs, x = .obj fs

theorem findRefIdx_of_no_match {r : TypedReference} : ∀ {refs : List JVal},
    allObj refs → (∀ x ∈ refs, entryMatchesB r x = false) → findRefIdx r refs = some none
  | [], _, _ => rfl
  | x :: rest, hobj, hno => by
      obtain ⟨fs, rfl⟩ := hobj x (by simp)
      have hx : refEntryMatches r fs = false := by
        simpa [entryMatchesB] using hno (.obj fs) (by simp)
      have ih : findRefIdx r rest = some none :=
        findRefIdx_of_no_match (fun y hy => hobj y (by simp [hy]))
          (fun y hy => hno y (by simp [hy]))
      simp [findRefIdx, hx, ih]

theorem findRefIdx_of_match {r : TypedReference} : ∀ {refs : List JVal},
    allObj refs → (∃ x ∈ refs, entryMatchesB r x = true) →
    ∃ i, findRefIdx r refs = some (some i)
  | [], _, hm => by simp at hm
  | x :: rest, hobj, hm => by
      obtain ⟨fs, rfl⟩ := hobj x (by simp)
      by_cases hx : refEntryMatches r fs
      · exact ⟨0, by simp [findRefIdx, hx]⟩
      · have hm2 : ∃ y ∈ rest, entryMatchesB r y = true := by
          rcases hm with ⟨y, hy, hmy⟩
          rcases List.mem_cons.mp hy with rfl | hy2
          · exact absurd (by simpa [entryMatchesB] using hmy) hx
          · exact ⟨y, hy2, hmy⟩
        obtain ⟨i, hi⟩ := findRefIdx_of_match (fun y hy => hobj y (by simp [hy])) hm2
        exact ⟨i + 1, by simp [findRefIdx, hx, hi]⟩

theorem findRefIdx_first_match {r : TypedReference} : ∀ {refs : List JVal} {i : Nat},
    findRefIdx r refs = some (some i) →
    i < refs.length ∧ entryMatchesB r (refs.getD i .null) = true
  | [], i, h => by simp [findRefIdx] at h
  | x :: rest, i, h => by
      cases x with
      | obj fs =>
          by_cases hx : refEntryMatches r fs
          · have : i = 0 := by simpa [findRefIdx, hx] using h.symm
            subst this
            simpa [entryMatchesB] using hx
          · rcases hrec : findRefIdx r rest with _ | oi
            · rw [findRefIdx, if_neg hx, hrec] at h
              exact absurd h (by simp)
            · cases oi with
              | none =>
                  rw [findRefIdx, if_neg hx, hrec] at h
                  exact absurd h (by simp)
              | some j =>
                  rw [findRefIdx, if_neg hx, hrec] at h
                  have hij : i = j + 1 := by simpa using h.symm
                  subst hij
                  obtain ⟨hlt, hmt⟩ := findRefIdx_first_match hrec
                  exact ⟨by simpa using Nat.succ_lt_succ hlt, by simpa using hmt⟩
      | str s => simp [findRefIdx] at h
      | num n => simp [findRefIdx] at h
      | boolv b => simp [findRefIdx] at h
      | null => simp [findRefIdx] at h
      | arr l => simp [findRefIdx] at h

theorem findRefIdx_crash {r : TypedReference} : ∀ {l1 : List JVal} {bad : JVal} {l2 : List JVal},
    (∀ fs, bad ≠ .obj fs) → (∀ x ∈ l1, ∃ fs, x = .obj fs ∧ refEntryMatches r fs = false) →
    findRefIdx r (l1 ++ bad :: l2) = none
  | [], bad, l2, hbad, _ => by
      cases bad with
      | obj fs => exact absurd rfl (hbad fs)
      | str s => rfl
      | num n => rfl
      | boolv b => rfl
      | null => rfl
      | arr l => rfl
  | x :: rest, bad, l2, hbad, hno => by
      obtain ⟨fs, rfl, hm⟩ := hno x (by simp)
      have ih : findRefIdx r (rest ++ bad :: l2) = none :=
        findRefIdx_crash hbad (fun y hy => hno y (by simp [hy]))
      simp [findRefIdx, hm, ih]

theorem getLastD_cons_of_ne_nil {α : Type} {m : List α} (hm : m ≠ []) (a b : α) :
    m.getLastD a = m.getLastD b := by
  rw [List.getLastD_eq_getLast?, List.getLastD_eq_getLast?, List.getLast?_eq_getLast m hm]
  rfl

theorem lastD_cons_dropLast_perm {α : Type} : ∀ (m : List α), m ≠ [] →
    ∀ x, (m.getLastD x :: m.dropLast).Perm m := by
  intro m hm x
  have h1 : m.dropLast ++ [m.getLast hm] = m := List.dropLast_append_getLast hm
  have h2 : m.getLastD x = m.getLast hm := by
    rw [List.getLastD_eq_getLast?, List.getLast?_eq_getLast m hm]
    rfl
  rw [h2]
  have h3 : (m.getLast hm :: m.dropLast).Perm (m.dropLast ++ [m.getLast hm]) :=
    (List.perm_append_singleton _ _).symm
  rw [h1] at h3
  exact h3

theorem swapRemove_perm : ∀ (l : List JVal) (i : Nat), i < l.length →
    (swapRemove l i).Perm (l.eraseIdx i)
  | [], i, h => by simp at h
  | [x], 0, _ => by simp [swapRemove]
  | x :: y :: tl, 0, _ => by
      have hne : (y :: tl : List JVal) ≠ [] := by simp
      have hL : (x :: y :: tl : List JVal).getLastD .null = (y :: tl).getLastD .null := by
        rw [List.getLastD_cons]
        exact getLastD_cons_of_ne_nil hne x JVal.null
      have h1 : swapRemove (x :: y :: tl) 0 =
          (y :: tl).getLastD .null :: (y :: tl).dropLast := by
        simp only [swapRemove, List.set_cons_zero, List.length_cons]
        rw [hL, Nat.add_sub_cancel, List.take_succ_cons, List.dropLast_eq_take]
        simp
      rw [h1]
      have h4 : (x :: y :: tl : List JVal).eraseIdx 0 = y :: tl := rfl
      rw [h4]
      exact lastD_cons_dropLast_perm (y :: tl) hne JVal.null
  | x :: y :: tl, i + 1, h => by
      have hlt : i < (y :: tl : List JVal).length := by
        simpa using Nat.lt_of_succ_lt_succ h
      have hne : (y :: tl : List JVal) ≠ [] := by simp
      have hL : (x :: y :: tl : List JVal).getLastD .null = (y :: tl).getLastD .null := by
        rw [List.getLastD_cons]
        exact getLastD_cons_of_ne_nil hne x JVal.null
      have h1 : swapRemove (x :: y :: tl) (i + 1) = x :: swapRemove (y :: tl) i := by
        simp only [swapRemove, List.length_cons]
        rw [hL, List.set_cons_succ, Nat.add_sub_cancel, List.take_succ_cons,
          Nat.add_sub_cancel]
      rw [h1]
      have h4 : (x :: y :: tl : List JVal).eraseIdx (i + 1) = x :: (y :: tl).eraseIdx i := rfl
      rw [h4]
      exact (swapRemove_perm (y :: tl) i hlt).cons x

theorem countP_eraseIdx {α : Type} (p : α → Bool) (dflt : α) : ∀ (l : List α) (i : Nat),
    i < l.length → p (l.getD i dflt) = true →
    (l.eraseIdx i).countP p + 1 = l.countP p
  | [], i, h, _ => by simp at h
  | x :: tl, 0, _, hp => by
      simp only [List.getD_cons_zero] at hp
      simp [List.eraseIdx, List.countP_cons, hp]
  | x :: tl, i + 1, h, hp => by
      have hlt : i < tl.length := by simpa using Nat.lt_of_succ_lt_succ h
      have hp2 : p (tl.getD i dflt) = true := by simpa [List.getD_cons_succ] using hp
      have ih := countP_eraseIdx p dflt tl i hlt hp2
      simp only [List.eraseIdx, List.countP_cons]
      omega

theorem countP_swapRemove {r : TypedReference} {refs : List JVal} {i : Nat}
    (h : findRefIdx r refs = some (some i)) :
    countMatching (swapRemove refs i) r + 1 = countMatching refs r := by
  obtain ⟨hlt, hmt⟩ := findRefIdx_first_match h
  rw [countMatching, countMatching,
    (swapRemove_perm refs i hlt).countP_eq (entryMatchesB r)]
  exact countP_eraseIdx (entryMatchesB r) .null refs i hlt hmt

/-! ### Trait-loop, workload-loop and dereference-loop lemmas -/

/-- The trait loop of a workload finished without error. -/
def traitsOk (fetchDef : Doc → Option TraitDefinition) (wl : Workload) : Prop :=
  (processTraits fetchDef (workloadRefOf wl) (docName wl.workload) wl.traits).2 = none

theorem processTraits_mem {fetchDef : Doc → Option TraitDefinition} {wref : TypedReference}
    {n : String} : ∀ {ts : List Doc} {t : Doc} {td : TraitDefinition},
    (processTraits fetchDef wref n ts).2 = none → t ∈ ts → fetchDef t = some td →
    td.workloadRefPath ≠ [] →
    ∃ t2, setPath t td.workloadRefPath (refToJSON wref) = some t2 ∧
      t2 ∈ (processTraits fetchDef wref n ts).1
  | [], t, td, _, ht, _, _ => absurd ht (List.not_mem_nil t)
  | t0 :: rest, t, td, hok, ht, hdef, hp => by
      rcases hf : fetchDef t0 with _ | td0
      · rw [processTraits] at hok
        simp [hf] at hok
      · rw [processTraits] at hok ⊢
        simp only [hf] at hok ⊢
        by_cases hemp : td0.workloadRefPath.isEmpty
        · rw [if_pos hemp] at hok ⊢
          rcases List.mem_cons.mp ht with rfl | ht2
          · rw [hf] at hdef
            have heq : td0 = td := by simpa using hdef
            subst heq
            exact absurd (List.isEmpty_iff.mp hemp) hp
          · rcases hrec : processTraits fetchDef wref n rest with ⟨ds, e⟩
            simp only [hrec] at hok ⊢
            have hok2 : (processTraits fetchDef wref n rest).2 = none := by
              rw [hrec]; simpa using hok
            obtain ⟨t2, hset, hmem⟩ := processTraits_mem hok2 ht2 hdef hp
            rw [hrec] at hmem
            exact ⟨t2, hset, by simpa using List.mem_cons_of_mem t0 hmem⟩
        · rw [if_neg hemp] at hok ⊢
          rcases hset0 : setPath t0 td0.workloadRefPath (refToJSON wref) with _ | t02
          · simp only [hset0] at hok
            exact absurd hok (by simp)
          · simp only [hset0] at hok ⊢
            rcases List.mem_cons.mp ht with rfl | ht2
            · rw [hf] at hdef
              have heq : td0 = td := by simpa using hdef
              subst heq
              refine ⟨t02, hset0, ?_⟩
              rcases hrec : processTraits fetchDef wref n rest with ⟨ds, e⟩
              simp
            · rcases hrec : processTraits fetchDef wref n rest with ⟨ds, e⟩
              simp only [hrec] at hok ⊢
              have hok2 : (processTraits fetchDef wref n rest).2 = none := by
                rw [hrec]; simpa using hok
              obtain ⟨t2, hset, hmem⟩ := processTraits_mem hok2 ht2 hdef hp
              rw [hrec] at hmem
              exact ⟨t2, hset, by simpa using List.mem_cons_of_mem t02 hmem⟩

/-- A workload whose scope list is empty and whose traits all process
cleanly contributes its events and passes the loop on unchanged. -/
theorem applyLoop_append_skip (fetchDef : Doc → Option TraitDefinition) :
    ∀ (w1 : List Workload), (∀ x ∈ w1, x.scopes = [] ∧ traitsOk fetchDef x) →
    ∀ (rest : List Workload) (store : ScopeStore),
    applyLoop fetchDef (w1 ++ rest) store =
      ((w1.flatMap (workloadEvents fetchDef)) ++ (applyLoop fetchDef rest store).1,
        (applyLoop fetchDef rest store).2)
  | [], _, rest, store => by simp
  | wl :: w1, h, rest, store => by
      obtain ⟨hsc, hok⟩ := h wl (by simp)
      have ih := applyLoop_append_skip fetchDef w1 (fun x hx => h x (by simp [hx])) rest store
      rw [List.cons_append, applyLoop]
      rcases hpt : processTraits fetchDef (workloadRefOf wl) (docName wl.workload) wl.traits
        with ⟨tds, terr⟩
      have hterr : terr = none := by
        rw [traitsOk, hpt] at hok
        exact hok
      subst hterr
      rw [hsc, ih]
      simp [workloadEvents, hpt]

/-- In a scope-free workload list the loop either stops at a trait error or
completes cleanly with exactly the per-workload events and an unchanged
store. -/
theorem applyLoop_scopeless (fetchDef : Doc → Option TraitDefinition) :
    ∀ (w : List Workload), (∀ x ∈ w, x.scopes = []) → ∀ (store : ScopeStore),
    (∃ e, (applyLoop fetchDef w store).2.2 = some (.err e)) ∨
    (applyLoop fetchDef w store = (w.flatMap (workloadEvents fetchDef), store, none) ∧
      ∀ x ∈ w, traitsOk fetchDef x)
  | [], _, store => .inr (by simp [applyLoop])
  | wl :: w, h, store => by
      rw [applyLoop]
      rcases hpt : processTraits fetchDef (workloadRefOf wl) (docName wl.workload) wl.traits
        with ⟨tds, terr⟩
      cases terr with
      | some e => exact .inl ⟨e, by simp⟩
      | none =>
          rw [h wl (by simp)]
          rcases applyLoop_scopeless fetchDef w (fun x hx => h x (by simp [hx])) store with
            ⟨e, he⟩ | ⟨heq, hts⟩
          · left
            refine ⟨e, ?_⟩
            rcases hL : applyLoop fetchDef w store with ⟨evs2, store2, r⟩
            rw [hL] at he
            simpa using he
          · right
            rw [heq]
            constructor
            · simp [workloadEvents, hpt]
            · intro x hx
              rcases List.mem_cons.mp hx with rfl | hx2
              · rw [traitsOk, hpt]
              · exact hts x hx2

theorem Apply_eq_of_ne_nil (fetchDef : Doc → Option TraitDefinition) (store : ScopeStore)
    (status : List WorkloadStatus) {w : List Workload} (h : w ≠ []) :
    Apply fetchDef store status w =
      match applyLoop fetchDef w store with
      | (evs, store2, some r) => ⟨evs, store2, r⟩
      | (evs, store2, none) =>
          match dereferenceScope store2 status w with
          | (evs2, store3, r) => ⟨evs ++ Event.derefStarted :: evs2, store3, r⟩ := by
  cases w with
  | nil => exact absurd rfl h
  | cons a t => rfl

/-- applyScopeRemoval emits its Get, and possibly one scope update. -/
theorem applyScopeRemoval_events_shape (store : ScopeStore) (ws : WorkloadStatus)
    (s : WorkloadScope) :
    (applyScopeRemoval store ws s).1 = [.gotScope s.reference] ∨
    ∃ d, (applyScopeRemoval store ws s).1 = [.gotScope s.reference, .removedFromScope d] := by
  rcases h0 : storeGet store s.reference with _ | s0
  · left; simp [applyScopeRemoval, h0]
  · rcases h1 : getPath s0 ["spec", "workloadRefs"] with _ | v
    · left; simp [applyScopeRemoval, h0, h1]
    · cases v with
      | arr refs =>
          rcases h2 : findRefIdx ws.reference refs with _ | oi
          · left; simp [applyScopeRemoval, h0, h1, h2]
          · cases oi with
            | none => left; simp [applyScopeRemoval, h0, h1, h2]
            | some i =>
                rcases h3 : setPath s0 ["spec", "workloadRefs"] (.arr (swapRemove refs i))
                  with _ | s2
                · left; simp [applyScopeRemoval, h0, h1, h2, h3]
                · right; exact ⟨s2, by simp [applyScopeRemoval, h0, h1, h2, h3]⟩
      | str a => left; simp [applyScopeRemoval, h0, h1]
      | num a => left; simp [applyScopeRemoval, h0, h1]
      | boolv a => left; simp [applyScopeRemoval, h0, h1]
      | null => left; simp [applyScopeRemoval, h0, h1]
      | obj a => left; simp [applyScopeRemoval, h0, h1]

/-- No storage-write event of the dereference phase is a workload or trait
write, a scope join, or the dereference marker. -/
def isRemovalEvent (e : Event) : Bool :=
  match e with
  | .gotScope _ => true
  | .removedFromScope _ => true
  | _ => false

theorem removeAll_events (store : ScopeStore) (st : WorkloadStatus) :
    ∀ (cands : List WorkloadScope), ∀ e ∈ (removeAll store st cands).1, isRemovalEvent e = true
  | [], e, he => by simp [removeAll] at he
  | s :: rest, e, he => by
      rw [removeAll] at he
      have hshape := applyScopeRemoval_events_shape store st s
      rcases hr : applyScopeRemoval store st s with ⟨evs, store2, r⟩
      rw [hr] at hshape he
      have hevs : ∀ e2 ∈ evs, isRemovalEvent e2 = true := by
        rcases hshape with h1 | ⟨d, h1⟩ <;> simp only at h1 <;> subst h1 <;>
          intro e2 he2 <;> rcases List.mem_cons.mp he2 with rfl | h2 <;>
          simp_all [isRemovalEvent]
      cases r with
      | ok a =>
          rcases hrec : removeAll store2 st rest with ⟨evs2, store3, r2⟩
          simp only [hrec] at he
          rcases List.mem_append.mp he with h2 | h2
          · exact hevs e h2
          · have := removeAll_events store2 st rest e
            rw [hrec] at this
            exact this h2
      | err er => exact hevs e (by simpa using he)
      | crashed => exact hevs e (by simpa using he)

theorem dereferenceScope_events (store : ScopeStore) :
    ∀ (status : List WorkloadStatus) (w : List Workload),
    ∀ e ∈ (dereferenceScope store status w).1, isRemovalEvent e = true
  | [], _, e, he => by simp [dereferenceScope] at he
  | st :: rest, w, e, he => by
      rw [dereferenceScope] at he
      rcases hr : removeAll store st (toBeDereferenced st w) with ⟨evs, store2, r⟩
      rw [hr] at he
      have hevs : ∀ e2 ∈ evs, isRemovalEvent e2 = true := by
        intro e2 he2
        have := removeAll_events store st (toBeDereferenced st w) e2
        rw [hr] at this
        exact this he2
      cases r with
      | ok a =>
          rcases hrec : dereferenceScope store2 rest w with ⟨evs2, store3, r2⟩
          simp only [hrec] at he
          rcases List.mem_append.mp he with h2 | h2
          · exact hevs e h2
          · have := dereferenceScope_events store2 rest w e
            rw [hrec] at this
            exact this h2
      | err er => exact hevs e (by simpa using he)
      | crashed => exact hevs e (by simpa using he)

theorem countP_eq_zero_of_removal {evs : List Event}
    (h : ∀ e ∈ evs, isRemovalEvent e = true) :
    evs.countP Event.isDeref = 0 ∧ evs.countP Event.isWorkloadWrite = 0 ∧
      evs.countP Event.isScopeJoin = 0 := by
  refine ⟨List.countP_eq_zero.mpr ?_, List.countP_eq_zero.mpr ?_,
    List.countP_eq_zero.mpr ?_⟩ <;>
    · intro e he
      have := h e he
      cases e <;> simp_all [isRemovalEvent, Event.isDeref, Event.isWorkloadWrite,
        Event.isScopeJoin]

theorem workloadEvents_counts (fetchDef : Doc → Option TraitDefinition) :
    ∀ (w : List Workload),
    (w.flatMap (workloadEvents fetchDef)).countP Event.isWorkloadWrite = w.length ∧
    (w.flatMap (workloadEvents fetchDef)).countP Event.isDeref = 0
  | [] => by simp
  | wl :: w => by
      obtain ⟨ih1, ih2⟩ := workloadEvents_counts fetchDef w
      rw [List.flatMap_cons]
      constructor
      · rw [List.countP_append, ih1, workloadEvents, List.countP_cons]
        have hmap : ((processTraits fetchDef (workloadRefOf wl) (docName wl.workload)
            wl.traits).1.map Event.wroteTrait).countP Event.isWorkloadWrite = 0 := by
          rw [List.countP_map]
          exact List.countP_eq_zero.mpr (fun d _ => by simp [Event.isWorkloadWrite])
        rw [hmap]
        simp [Event.isWorkloadWrite, List.length_cons, Nat.add_comm]
      · rw [List.countP_append, ih2, workloadEvents, List.countP_cons]
        have hmap : ((processTraits fetchDef (workloadRefOf wl) (docName wl.workload)
            wl.traits).1.map Event.wroteTrait).countP Event.isDeref = 0 := by
          rw [List.countP_map]
          exact List.countP_eq_zero.mpr (fun d _ => by simp [Event.isDeref])
        rw [hmap]
        simp [Event.isDeref]

/-! ### Join lemmas -/

theorem entryMatches_refToJSON (r : TypedReference) : entryMatchesB r (refToJSON r) = true := by
  simp [entryMatchesB, refToJSON, refEntryMatches, lookupK, isStrEq]

/-- A membership scan that finds a structurally equal entry makes Join return
with no write. -/
theorem join_found {n : String} {s : Doc} {r : TypedReference} {refs : List JVal}
    (hget : getPath s ["spec", "workloadRefs"] = some (.arr refs))
    (hobj : allObj refs) (hpos : 1 ≤ countMatching refs r) :
    applyScope n s r = .ok none := by
  have hex : ∃ x ∈ refs, entryMatchesB r x = true := by
    rcases List.countP_pos_iff.mp (Nat.lt_of_lt_of_le Nat.zero_lt_one hpos) with ⟨x, hx, hpx⟩
    exact ⟨x, hx, hpx⟩
  obtain ⟨i, hi⟩ := findRefIdx_of_match hobj hex
  simp [applyScope, hget, hi]

/-- A membership scan that finds no structurally equal entry makes Join
append the reference and write the updated document. -/
theorem join_appends {n : String} {s : Doc} {r : TypedReference} {refs : List JVal}
    (hget : getPath s ["spec", "workloadRefs"] = some (.arr refs))
    (hobj : allObj refs) (hzero : countMatching refs r = 0) :
    ∃ s2, applyScope n s r = .ok (some s2) ∧
      getPath s2 ["spec", "workloadRefs"] = some (.arr (refs ++ [refToJSON r])) := by
  have hno : ∀ x ∈ refs, entryMatchesB r x = false := by
    intro x hx
    have := List.countP_eq_zero.mp hzero x hx
    simpa using this
  have hidx : findRefIdx r refs = some none := findRefIdx_of_no_match hobj hno
  obtain ⟨fs, hsp, _⟩ := getPath2_inv hget
  have hset := setPath2_of_obj hsp "workloadRefs" (.arr (refs ++ [refToJSON r]))
  refine ⟨_, by simp [applyScope, hget, hidx, hset], setPath_getPath hset⟩

/-- Join on a document whose membership list is absent writes back the
single-element list. -/
theorem join_creates {n : String} {s : Doc} {r : TypedReference}
    (habs : getPath s ["spec", "workloadRefs"] = none) (hspec : objOrAbsent s "spec") :
    ∃ s2, applyScope n s r = .ok (some s2) ∧
      getPath s2 ["spec", "workloadRefs"] = some (.arr [refToJSON r]) := by
  obtain ⟨s2, hset⟩ := setPath2_total hspec "workloadRefs" (.arr [refToJSON r])
  refine ⟨s2, by simp [applyScope, habs, hset], setPath_getPath hset⟩

/-- The membership list of a document: the array at spec.workloadRefs, or
empty when it is absent. -/
def refsList (s : Doc) : List JVal :=
  match getPath s ["spec", "workloadRefs"] with
  | some (.arr refs) => refs
  | _ => []

/-- Number of entries of a document's membership list structurally equal to a
reference. -/
def docCount (s : Doc) (r : TypedReference) : Nat := countMatching (refsList s) r

/-- A scope document whose spec slot is settable and whose membership list,
when present, is an array of maps. -/
def membershipWellFormed (s : Doc) : Prop :=
  objOrAbsent s "spec" ∧ allObj (refsList s) ∧
    ∀ v, getPath s ["spec", "workloadRefs"] = some v → ∃ l, v = .arr l

/-- The document after a Join: the written document, or the unchanged input
when Join performed no write. -/
def afterJoin (n : String) (s : Doc) (r : TypedReference) : Doc :=
  match applyScope n s r with
  | .ok (some s2) => s2
  | _ => s

/-! ### Concrete documents used in counterexamples and witnesses -/

def webDoc : Doc :=
  [("apiVersion", .str "core.oam.dev/v1alpha2"), ("kind", .str "ContainerizedWorkload"),
   ("metadata", .obj [("name", .str "web")])]

def dbDoc : Doc :=
  [("apiVersion", .str "core.oam.dev/v1alpha2"), ("kind", .str "ContainerizedWorkload"),
   ("metadata", .obj [("name", .str "db")])]

def scalerDoc : Doc :=
  [("apiVersion", .str "core.oam.dev/v1alpha2"), ("kind", .str "ManualScalerTrait"),
   ("metadata", .obj [("name", .str "scaler")])]

/-- A health scope with an unrelated spec field and no membership list yet. -/
def healthDoc : Doc :=
  [("apiVersion", .str "core.oam.dev/v1alpha2"), ("kind", .str "HealthScope"),
   ("metadata", .obj [("name", .str "health")]),
   ("spec", .obj [("probe-timeout", .num 5)])]

def otherScopeDoc : Doc :=
  [("apiVersion", .str "core.oam.dev/v1alpha2"), ("kind", .str "HealthScope"),
   ("metadata", .obj [("name", .str "other")]),
   ("spec", .obj [])]

def webRef : TypedReference :=
  ⟨"core.oam.dev/v1alpha2", "ContainerizedWorkload", "web"⟩

def oldScopeRef : TypedReference := ⟨"core.oam.dev/v1alpha2", "HealthScope", "old"⟩

/-- A trait-definition provider that never requests a stamp. -/
def fetchNoStamp : Doc → Option TraitDefinition := fun _ => some ⟨[]⟩

/-- A trait-definition provider that requests a stamp at spec.targetRef. -/
def fetchStamp : Doc → Option TraitDefinition := fun _ => some ⟨["spec", "targetRef"]⟩

/-- A membership list holding a matching map entry followed by a non-map
element. -/
def junkScopeDoc : Doc :=
  [("apiVersion", .str "core.oam.dev/v1alpha2"), ("kind", .str "HealthScope"),
   ("metadata", .obj [("name", .str "junky")]),
   ("spec", .obj [("workloadRefs", .arr [refToJSON webRef, .str "junk"])])]

/-! ### Claim theorems -/

/-- C6: for every prior status, Apply on an empty workload set returns the
distinct no-component error and performs zero storage writes (empty trace,
unchanged scope store). -/
theorem apply_empty_set_no_component (fetchDef : Doc → Option TraitDefinition)
    (store : ScopeStore) (status : List WorkloadStatus) :
    Apply fetchDef store status [] = ⟨[], store, .err .noComponent⟩ := rfl

/-- C8: on a scope document whose membership list at spec.workloadRefs is
absent (the path reads as missing and the spec slot is settable, i.e. absent
or an object), Join treats the list as empty: it appends the workload
reference and writes back a membership list holding exactly that one
reference. -/
theorem join_treats_absent_list_as_empty (n : String) (s : Doc) (r : TypedReference)
    (habs : getPath s ["spec", "workloadRefs"] = none) (hspec : objOrAbsent s "spec") :
    ∃ s2, applyScope n s r = .ok (some s2) ∧
      getPath s2 ["spec", "workloadRefs"] = some (.arr [refToJSON r]) :=
  join_creates habs hspec

theorem join_treats_absent_list_as_empty_witness :
    ∃ s2, applyScope "web" healthDoc webRef = .ok (some s2) ∧
      getPath s2 ["spec", "workloadRefs"] = some (.arr [refToJSON webRef]) :=
  join_treats_absent_list_as_empty "web" healthDoc webRef rfl (.inr ⟨_, rfl⟩)

/-- C3: on a well-formed scope document holding at most one entry
structurally equal to R, Join is an idempotent no-op when an equal entry is
already present, and joining twice never leaves more than one structurally
equal entry: the second Join performs no write and the resulting membership
list holds at most one entry equal to R. -/
theorem join_deduplicates (n : String) (s : Doc) (r : TypedReference)
    (hwf : membershipWellFormed s) (hdup : docCount s r ≤ 1) :
    (1 ≤ docCount s r → applyScope n s r = .ok none) ∧
    applyScope n (afterJoin n s r) r = .ok none ∧
    docCount (afterJoin n (afterJoin n s r) r) r ≤ 1 := by
  obtain ⟨hspec, hobj, harr⟩ := hwf
  rcases hget : getPath s ["spec", "workloadRefs"] with _ | v
  · -- membership list absent: the first Join writes the singleton list
    have hc0 : docCount s r = 0 := by simp [docCount, refsList, hget, countMatching]
    obtain ⟨s2, hap, hget2⟩ := join_creates (n := n) (r := r) hget hspec
    have haj : afterJoin n s r = s2 := by simp [afterJoin, hap]
    have hcnt : countMatching [refToJSON r] r = 1 := by
      simp [countMatching, List.countP_cons, entryMatches_refToJSON]
    have hobj2 : allObj [refToJSON r] := by
      intro x hx
      rw [List.mem_singleton] at hx
      exact ⟨_, by rw [hx]; rfl⟩
    have hjoin2 : applyScope n s2 r = .ok none :=
      join_found hget2 hobj2 (by rw [hcnt])
    refine ⟨?_, ?_, ?_⟩
    · intro h1
      rw [hc0] at h1
      exact absurd h1 (by simp)
    · rw [haj]
      exact hjoin2
    · have haj2 : afterJoin n (afterJoin n s r) r = s2 := by
        rw [haj]
        simp [afterJoin, hjoin2]
      rw [haj2]
      simp [docCount, refsList, hget2, hcnt]
  · obtain ⟨refs, rfl⟩ := harr v hget
    have hobj2 : allObj refs := by
      have : refsList s = refs := by simp [refsList, hget]
      rw [this] at hobj
      exact hobj
    have hcount : docCount s r = countMatching refs r := by simp [docCount, refsList, hget]
    by_cases hz : countMatching refs r = 0
    · -- no equal entry yet: the first Join appends
      obtain ⟨s2, hap, hget2⟩ := join_appends (n := n) hget hobj2 hz
      have haj : afterJoin n s r = s2 := by simp [afterJoin, hap]
      have hcnt : countMatching (refs ++ [refToJSON r]) r = 1 := by
        rw [countMatching, List.countP_append]
        rw [countMatching] at hz
        rw [hz]
        simp [List.countP_cons, entryMatches_refToJSON]
      have hobj3 : allObj (refs ++ [refToJSON r]) := by
        intro x hx
        rcases List.mem_append.mp hx with hx2 | hx2
        · exact hobj2 x hx2
        · rw [List.mem_singleton] at hx2
          exact ⟨_, by rw [hx2]; rfl⟩
      have hjoin2 : applyScope n s2 r = .ok none :=
        join_found hget2 hobj3 (by rw [hcnt])
      refine ⟨?_, ?_, ?_⟩
      · intro h1
        rw [hcount, hz] at h1
        exact absurd h1 (by simp)
      · rw [haj]
        exact hjoin2
      · have haj2 : afterJoin n (afterJoin n s r) r = s2 := by
          rw [haj]
          simp [afterJoin, hjoin2]
        rw [haj2]
        simp [docCount, refsList, hget2, hcnt]
    · -- an equal entry is already present: both Joins are no-ops
      have hpos : 1 ≤ countMatching refs r := Nat.one_le_iff_ne_zero.mpr hz
      have hjoin : applyScope n s r = .ok none := join_found hget hobj2 hpos
      have haj : afterJoin n s r = s := by simp [afterJoin, hjoin]
      refine ⟨fun _ => hjoin, ?_, ?_⟩
      · rw [haj]
        exact hjoin
      · rw [haj, haj]
        exact hdup

theorem join_deduplicates_witness :
    (1 ≤ docCount healthDoc webRef → applyScope "web" healthDoc webRef = .ok none) ∧
    applyScope "web" (afterJoin "web" healthDoc webRef) webRef = .ok none ∧
    docCount (afterJoin "web" (afterJoin "web" healthDoc webRef) webRef) webRef ≤ 1 :=
  join_deduplicates "web" healthDoc webRef
    ⟨.inr ⟨_, rfl⟩, fun x hx => absurd hx (List.not_mem_nil x),
      fun v hv => Option.noConfusion hv⟩
    (by decide)

/-- C7: for every removal candidate processed by Leave: a failed fetch
returns the error carrying the scope identity; a fetched scope whose
membership list is absent, or whose (well-formed) list holds no entry equal
to the departing workload reference, is a silent no-op with no write; and a
present entry is removed (the count of equal entries drops by one) and the
updated document written back. -/
theorem leave_cases (store : ScopeStore) (ws : WorkloadStatus) (s : WorkloadScope) :
    (storeGet store s.reference = none →
      applyScopeRemoval store ws s = ([.gotScope s.reference], store,
        .err (.applyScopeFailed s.reference.apiVersion s.reference.kind s.reference.name))) ∧
    (∀ s0, storeGet store s.reference = some s0 →
      (getPath s0 ["spec", "workloadRefs"] = none →
        applyScopeRemoval store ws s = ([.gotScope s.reference], store, .ok ())) ∧
      (∀ refs, getPath s0 ["spec", "workloadRefs"] = some (.arr refs) → allObj refs →
        (countMatching refs ws.reference = 0 →
          applyScopeRemoval store ws s = ([.gotScope s.reference], store, .ok ())) ∧
        (1 ≤ countMatching refs ws.reference →
          ∃ i s2, findRefIdx ws.reference refs = some (some i) ∧
            setPath s0 ["spec", "workloadRefs"] (.arr (swapRemove refs i)) = some s2 ∧
            applyScopeRemoval store ws s =
              ([.gotScope s.reference, .removedFromScope s2],
                storeSet store s.reference s2, .ok ()) ∧
            countMatching (swapRemove refs i) ws.reference + 1 =
              countMatching refs ws.reference))) := by
  refine ⟨?_, ?_⟩
  · intro h0
    simp [applyScopeRemoval, h0]
  · intro s0 h0
    refine ⟨?_, ?_⟩
    · intro h1
      simp [applyScopeRemoval, h0, h1]
    · intro refs h1 hobj
      refine ⟨?_, ?_⟩
      · intro hz
        have hno : ∀ x ∈ refs, entryMatchesB ws.reference x = false := by
          intro x hx
          have := List.countP_eq_zero.mp hz x hx
          simpa using this
        have hidx : findRefIdx ws.reference refs = some none :=
          findRefIdx_of_no_match hobj hno
        simp [applyScopeRemoval, h0, h1, hidx]
      · intro hpos
        have hex : ∃ x ∈ refs, entryMatchesB ws.reference x = true := by
          rcases List.countP_pos_iff.mp (Nat.lt_of_lt_of_le Nat.zero_lt_one hpos)
            with ⟨x, hx, hpx⟩
          exact ⟨x, hx, hpx⟩
        obtain ⟨i, hi⟩ := findRefIdx_of_match hobj hex
        obtain ⟨fs, hsp, _⟩ := getPath2_inv h1
        have hset := setPath2_of_obj hsp "workloadRefs" (.arr (swapRemove refs i))
        exact ⟨i, _, hi, hset, by simp [applyScopeRemoval, h0, h1, hi, hset],
          countP_swapRemove hi⟩

/-- The old scope document, of which web is the only member. -/
def oldScopeDoc : Doc :=
  [("apiVersion", .str "core.oam.dev/v1alpha2"), ("kind", .str "HealthScope"),
   ("metadata", .obj [("name", .str "old")]),
   ("spec", .obj [("workloadRefs", .arr [refToJSON webRef]), ("probe-timeout", .num 5)])]

/-- A scope store holding only the old scope. -/
def storeOld : ScopeStore := [(oldScopeRef, oldScopeDoc)]

/-- Prior status: web was a member of the old scope. -/
def statusOld : WorkloadStatus := ⟨webRef, [⟨oldScopeRef⟩]⟩

theorem leave_cases_witness :
    ∃ i s2, findRefIdx webRef [refToJSON webRef] = some (some i) ∧
      setPath oldScopeDoc ["spec", "workloadRefs"] (.arr (swapRemove [refToJSON webRef] i)) =
        some s2 ∧
      applyScopeRemoval storeOld statusOld ⟨oldScopeRef⟩ =
        ([.gotScope oldScopeRef, .removedFromScope s2],
          storeSet storeOld oldScopeRef s2, .ok ()) ∧
      countMatching (swapRemove [refToJSON webRef] i) webRef + 1 =
        countMatching [refToJSON webRef] webRef :=
  (((leave_cases storeOld statusOld ⟨oldScopeRef⟩).2 oldScopeDoc rfl).2
      [refToJSON webRef] rfl
      (by intro x hx; rw [List.mem_singleton.mp hx]; exact ⟨_, rfl⟩)).2
    (by decide)

/-- Every field of the document other than the membership list at
spec.workloadRefs reads the same: all other top-level entries, and all other
entries under spec. -/
def unrelatedPreserved (s s2 : Doc) : Prop :=
  (∀ k, k ≠ "spec" → lookupK s2 k = lookupK s k) ∧
  (∀ k, k ≠ "workloadRefs" → getPath s2 ["spec", k] = getPath s ["spec", k])

/-- C9: every document written by Join, and every document written by Leave,
differs from the document it was computed from only at spec.workloadRefs. -/
theorem scope_mutation_frame (n : String) (s : Doc) (r : TypedReference)
    (store : ScopeStore) (ws : WorkloadStatus) (sc : WorkloadScope) :
    (∀ s2, applyScope n s r = .ok (some s2) → unrelatedPreserved s s2) ∧
    (∀ s0 d, storeGet store sc.reference = some s0 →
      Event.removedFromScope d ∈ (applyScopeRemoval store ws sc).1 →
      unrelatedPreserved s0 d) := by
  constructor
  · intro s2 hap
    rcases hget : getPath s ["spec", "workloadRefs"] with _ | v
    · rcases hset : setPath s ["spec", "workloadRefs"] (.arr [refToJSON r]) with _ | s3
      · simp [applyScope, hget, hset] at hap
      · have heq : s3 = s2 := by simpa [applyScope, hget, hset] using hap
        subst heq
        exact setPath2_unrelated hset
    · cases v with
      | arr refs =>
          rcases hidx : findRefIdx r refs with _ | oi
          · simp [applyScope, hget, hidx] at hap
          · cases oi with
            | none =>
                rcases hset : setPath s ["spec", "workloadRefs"]
                    (.arr (refs ++ [refToJSON r])) with _ | s3
                · simp [applyScope, hget, hidx, hset] at hap
                · have heq : s3 = s2 := by simpa [applyScope, hget, hidx, hset] using hap
                  subst heq
                  exact setPath2_unrelated hset
            | some i => simp [applyScope, hget, hidx] at hap
      | str a => simp [applyScope, hget] at hap
      | num a => simp [applyScope, hget] at hap
      | boolv a => simp [applyScope, hget] at hap
      | null => simp [applyScope, hget] at hap
      | obj a => simp [applyScope, hget] at hap
  · intro s0 d h0 hmem
    rcases h1 : getPath s0 ["spec", "workloadRefs"] with _ | v
    · simp [applyScopeRemoval, h0, h1] at hmem
    · cases v with
      | arr refs =>
          rcases hidx : findRefIdx ws.reference refs with _ | oi
          · simp [applyScopeRemoval, h0, h1, hidx] at hmem
          · cases oi with
            | none => simp [applyScopeRemoval, h0, h1, hidx] at hmem
            | some i =>
                rcases hset : setPath s0 ["spec", "workloadRefs"]
                    (.arr (swapRemove refs i)) with _ | s2
                · simp [applyScopeRemoval, h0, h1, hidx, hset] at hmem
                · have heq : d = s2 := by
                    simpa [applyScopeRemoval, h0, h1, hidx, hset] using hmem
                  subst heq
                  exact setPath2_unrelated hset
      | str a => simp [applyScopeRemoval, h0, h1] at hmem
      | num a => simp [applyScopeRemoval, h0, h1] at hmem
      | boolv a => simp [applyScopeRemoval, h0, h1] at hmem
      | null => simp [applyScopeRemoval, h0, h1] at hmem
      | obj a => simp [applyScopeRemoval, h0, h1] at hmem

theorem scope_mutation_frame_witness :
    getPath (afterJoin "web" healthDoc webRef) ["spec", "probe-timeout"] =
      getPath healthDoc ["spec", "probe-timeout"] :=
  ((scope_mutation_frame "web" healthDoc webRef [] statusOld ⟨oldScopeRef⟩).1
      (afterJoin "web" healthDoc webRef) rfl).2 "probe-timeout" (by decide)

/-- C10 (amended): a non-list value at spec.workloadRefs always panics the
unchecked assertion in both Join and Leave, and a list element that is not a
map panics the scan exactly when it is reached, i.e. when no structurally
equal entry precedes it; in none of these cases is an error returned. -/
theorem unchecked_assertions_crash (n : String) (s : Doc) (r : TypedReference)
    (store : ScopeStore) (ws : WorkloadStatus) (sc : WorkloadScope) :
    (∀ v, getPath s ["spec", "workloadRefs"] = some v → (∀ l, v ≠ .arr l) →
      applyScope n s r = .crashed) ∧
    (∀ l1 bad l2, getPath s ["spec", "workloadRefs"] = some (.arr (l1 ++ bad :: l2)) →
      (∀ fs, bad ≠ .obj fs) →
      (∀ x ∈ l1, ∃ fs, x = .obj fs ∧ refEntryMatches r fs = false) →
      applyScope n s r = .crashed) ∧
    (∀ s0 v, storeGet store sc.reference = some s0 →
      getPath s0 ["spec", "workloadRefs"] = some v → (∀ l, v ≠ .arr l) →
      (applyScopeRemoval store ws sc).2.2 = .crashed) ∧
    (∀ s0 l1 bad l2, storeGet store sc.reference = some s0 →
      getPath s0 ["spec", "workloadRefs"] = some (.arr (l1 ++ bad :: l2)) →
      (∀ fs, bad ≠ .obj fs) →
      (∀ x ∈ l1, ∃ fs, x = .obj fs ∧ refEntryMatches ws.reference fs = false) →
      (applyScopeRemoval store ws sc).2.2 = .crashed) := by
  refine ⟨?_, ?_, ?_, ?_⟩
  · intro v hget hv
    cases v with
    | arr l => exact absurd rfl (hv l)
    | str a => simp [applyScope, hget]
    | num a => simp [applyScope, hget]
    | boolv a => simp [applyScope, hget]
    | null => simp [applyScope, hget]
    | obj a => simp [applyScope, hget]
  · intro l1 bad l2 hget hbad hpre
    have hidx : findRefIdx r (l1 ++ bad :: l2) = none := findRefIdx_crash hbad hpre
    simp [applyScope, hget, hidx]
  · intro s0 v h0 hget hv
    cases v with
    | arr l => exact absurd rfl (hv l)
    | str a => simp [applyScopeRemoval, h0, hget]
    | num a => simp [applyScopeRemoval, h0, hget]
    | boolv a => simp [applyScopeRemoval, h0, hget]
    | null => simp [applyScopeRemoval, h0, hget]
    | obj a => simp [applyScopeRemoval, h0, hget]
  · intro s0 l1 bad l2 h0 hget hbad hpre
    have hidx : findRefIdx ws.reference (l1 ++ bad :: l2) = none := findRefIdx_crash hbad hpre
    simp [applyScopeRemoval, h0, hget, hidx]

/-- A scope document whose membership value is not a list. -/
def nonListScopeDoc : Doc :=
  [("apiVersion", .str "core.oam.dev/v1alpha2"), ("kind", .str "HealthScope"),
   ("metadata", .obj [("name", .str "nonlist")]),
   ("spec", .obj [("workloadRefs", .str "oops")])]

theorem unchecked_assertions_crash_witness :
    applyScope "web" nonListScopeDoc webRef = .crashed :=
  (unchecked_assertions_crash "web" nonListScopeDoc webRef [] statusOld ⟨oldScopeRef⟩).1
    (.str "oops") rfl (fun _ h => JVal.noConfusion h)

/-- C10 counterexample: on a membership list holding a structurally equal map
entry followed by a non-map element, Join returns plain success — neither a
panic nor an error — because the scan stops at the match before reaching the
non-map element. -/
theorem junk_after_match_returns_ok_ce :
    applyScope "web" junkScopeDoc webRef = .ok none := rfl

/-! ### Differ lemmas -/

theorem toBeDereferenced_foldl_keep (st : WorkloadStatus) :
    ∀ (w : List Workload), (∀ x ∈ w, refMatchesWorkload st.reference x = false) →
    ∀ acc, w.foldl (fun acc wl => if refMatchesWorkload st.reference wl then
        findDereferencedScopes st.scopes wl.scopes else acc) acc = acc
  | [], _, acc => rfl
  | wl :: w, h, acc => by
      rw [List.foldl_cons, if_neg (by rw [h wl (by simp)]; simp)]
      exact toBeDereferenced_foldl_keep st w (fun x hx => h x (by simp [hx])) acc

theorem findDereferencedScopes_mem : ∀ (sts : List WorkloadScope) (scopes : List Doc)
    (ss : WorkloadScope), ss ∈ findDereferencedScopes sts scopes ↔
      (ss ∈ sts ∧ ∀ sc ∈ scopes, scopeMatchesRef sc ss.reference = false)
  | [], scopes, ss => by simp [findDereferencedScopes]
  | s0 :: sts, scopes, ss => by
      rw [findDereferencedScopes]
      by_cases hany : scopes.any (fun sc => scopeMatchesRef sc s0.reference)
      · rw [if_pos hany, findDereferencedScopes_mem sts scopes ss]
        constructor
        · rintro ⟨hm, habs⟩
          exact ⟨List.mem_cons_of_mem s0 hm, habs⟩
        · rintro ⟨hm, habs⟩
          rcases List.mem_cons.mp hm with rfl | hm2
          · obtain ⟨sc, hsc, hmt⟩ := List.any_eq_true.mp hany
            exact absurd (habs sc hsc) (by simp [hmt])
          · exact ⟨hm2, habs⟩
      · rw [if_neg hany]
        have hall : ∀ sc ∈ scopes, scopeMatchesRef sc s0.reference = false := by
          intro sc hsc
          have := List.any_eq_false.mp (Bool.eq_false_iff.mpr hany) sc hsc
          simpa using this
        constructor
        · intro hm
          rcases List.mem_cons.mp hm with rfl | hm2
          · exact ⟨by simp, hall⟩
          · obtain ⟨hm3, habs⟩ := (findDereferencedScopes_mem sts scopes ss).mp hm2
            exact ⟨List.mem_cons_of_mem s0 hm3, habs⟩
        · rintro ⟨hm, habs⟩
          rcases List.mem_cons.mp hm with rfl | hm2
          · exact List.mem_cons_self ss _
          · exact List.mem_cons_of_mem s0
              ((findDereferencedScopes_mem sts scopes ss).mpr ⟨hm2, habs⟩)

/-- C4: a prior-status entry matched by no current workload keeps its full
recorded scope list as removal candidates; an entry matched by exactly one
current workload gets exactly the prior scopes absent (by structural
equality) from that workload's current scope list. -/
theorem differ_candidates (st : WorkloadStatus) (w w1 w2 : List Workload) (wl : Workload) :
    ((∀ x ∈ w, refMatchesWorkload st.reference x = false) →
      toBeDereferenced st w = st.scopes) ∧
    (w = w1 ++ wl :: w2 → refMatchesWorkload st.reference wl = true →
      (∀ x ∈ w1, refMatchesWorkload st.reference x = false) →
      (∀ x ∈ w2, refMatchesWorkload st.reference x = false) →
      toBeDereferenced st w = findDereferencedScopes st.scopes wl.scopes) ∧
    (∀ ss : WorkloadScope, ss ∈ findDereferencedScopes st.scopes wl.scopes ↔
      (ss ∈ st.scopes ∧ ∀ sc ∈ wl.scopes, scopeMatchesRef sc ss.reference = false)) := by
  refine ⟨?_, ?_, findDereferencedScopes_mem st.scopes wl.scopes⟩
  · intro h
    exact toBeDereferenced_foldl_keep st w h st.scopes
  · rintro rfl hwl h1 h2
    rw [toBeDereferenced, List.foldl_append,
      toBeDereferenced_foldl_keep st w1 h1 st.scopes, List.foldl_cons, if_pos hwl]
    exact toBeDereferenced_foldl_keep st w2 h2 _

/-- Desired state in which web keeps only the health scope. -/
def webWithHealth : Workload := ⟨webDoc, [], [healthDoc]⟩

/-- Prior status: web was a member of the health scope and of the old scope. -/
def statusHealthOld : WorkloadStatus :=
  ⟨webRef, [⟨⟨"core.oam.dev/v1alpha2", "HealthScope", "health"⟩⟩, ⟨oldScopeRef⟩]⟩

theorem differ_candidates_witness :
    toBeDereferenced statusHealthOld [webWithHealth] =
      findDereferencedScopes statusHealthOld.scopes webWithHealth.scopes ∧
    (⟨oldScopeRef⟩ : WorkloadScope) ∈
      findDereferencedScopes statusHealthOld.scopes webWithHealth.scopes := by
  have h := differ_candidates statusHealthOld [webWithHealth] [] [] webWithHealth
  refine ⟨h.2.1 rfl (by decide) (fun x hx => absurd hx (List.not_mem_nil x))
      (fun x hx => absurd hx (List.not_mem_nil x)), ?_⟩
  exact (h.2.2 ⟨oldScopeRef⟩).mpr
    ⟨List.mem_cons_of_mem _ (List.mem_cons_self _ _), by decide⟩

/-! ### The early return out of the scope loop, and its consequences -/

/-- C1 counterexample: a call of Apply in which every per-workload step
succeeds (the result is plain success) and the prior status is non-empty,
yet dereferenceScope never runs: the join of the first scope returns out of
Apply before the dereference call is reached. -/
theorem deref_skipped_ce :
    (Apply fetchNoStamp [] [statusOld] [webWithHealth]).result = .ok () ∧
    (Apply fetchNoStamp [] [statusOld] [webWithHealth]).trace.countP Event.isDeref = 0 :=
  ⟨rfl, rfl⟩

/-- C2 counterexample: two workloads, each with a non-empty scope list; only
one scope join and only one workload write occur, because Apply returns out
of the loop at the first scoped workload, so per-workload first-scope
processing does not reach the second workload at all. -/
theorem per_workload_scope_processing_ce :
    (Apply fetchNoStamp [] [] [webWithHealth, ⟨dbDoc, [], [otherScopeDoc]⟩]).result = .ok () ∧
    (Apply fetchNoStamp [] [] [webWithHealth,
      ⟨dbDoc, [], [otherScopeDoc]⟩]).trace.countP Event.isScopeJoin = 1 ∧
    (Apply fetchNoStamp [] [] [webWithHealth,
      ⟨dbDoc, [], [otherScopeDoc]⟩]).trace.countP Event.isWorkloadWrite = 1 :=
  ⟨rfl, rfl, rfl⟩

/-- C5 counterexample: the second workload carries a trait whose resolved
definition requests a stamp at spec.targetRef, and Apply succeeds, yet no
trait document is ever stamped or applied: the first workload's scope join
returns out of Apply before the second workload is processed. -/
theorem trait_stamp_skipped_ce :
    (Apply fetchStamp [] [] [webWithHealth, ⟨dbDoc, [scalerDoc], []⟩]).result = .ok () ∧
    (Apply fetchStamp [] [] [webWithHealth,
      ⟨dbDoc, [scalerDoc], []⟩]).trace.countP Event.isTraitWrite = 0 :=
  ⟨rfl, rfl⟩

/-- C1 (amended): dereferenceScope runs exactly once, after all workload
writes and on the full prior status, provided no workload in the set has
attached scopes (when some workload has scopes, Apply returns during its
scope handling and dereferenceScope does not run, as the counterexample
shows). -/
theorem deref_runs_once_when_no_scopes (fetchDef : Doc → Option TraitDefinition)
    (store : ScopeStore) (status : List WorkloadStatus) (w : List Workload)
    (hw : w ≠ []) (hsc : ∀ wl ∈ w, wl.scopes = [])
    (hok : (Apply fetchDef store status w).result = .ok ()) :
    (Apply fetchDef store status w).trace =
      w.flatMap (workloadEvents fetchDef) ++
        Event.derefStarted :: (dereferenceScope store status w).1 ∧
    (Apply fetchDef store status w).trace.countP Event.isDeref = 1 ∧
    (w.flatMap (workloadEvents fetchDef)).countP Event.isWorkloadWrite = w.length ∧
    (dereferenceScope store status w).1.countP Event.isWorkloadWrite = 0 := by
  rcases applyLoop_scopeless fetchDef w hsc store with ⟨e, he⟩ | ⟨heq, _⟩
  · exfalso
    rw [Apply_eq_of_ne_nil fetchDef store status hw] at hok
    rcases hL : applyLoop fetchDef w store with ⟨evs, store2, r⟩
    rw [hL] at he
    simp only at he
    subst he
    simp only [hL] at hok
    exact absurd hok (by simp)
  · rw [Apply_eq_of_ne_nil fetchDef store status hw]
    rcases hD : dereferenceScope store status w with ⟨evs2, store3, r2⟩
    simp only [heq, hD]
    have hder : ∀ e2 ∈ evs2, isRemovalEvent e2 = true := by
      intro e2 he2
      have := dereferenceScope_events store status w e2
      rw [hD] at this
      exact this he2
    obtain ⟨hz1, hz2, _⟩ := countP_eq_zero_of_removal hder
    obtain ⟨hc1, hc2⟩ := workloadEvents_counts fetchDef w
    refine ⟨by trivial, ?_, hc1, hz2⟩
    rw [List.countP_append, List.countP_cons, hc2, hz1]
    simp [Event.isDeref]

theorem deref_runs_once_when_no_scopes_witness :
    (Apply fetchNoStamp [] [] [⟨webDoc, [], []⟩]).trace =
      [(⟨webDoc, [], []⟩ : Workload)].flatMap (workloadEvents fetchNoStamp) ++
        Event.derefStarted :: (dereferenceScope [] [] [⟨webDoc, [], []⟩]).1 ∧
    (Apply fetchNoStamp [] [] [⟨webDoc, [], []⟩]).trace.countP Event.isDeref = 1 ∧
    ([(⟨webDoc, [], []⟩ : Workload)].flatMap
      (workloadEvents fetchNoStamp)).countP Event.isWorkloadWrite = 1 ∧
    (dereferenceScope [] [] [⟨webDoc, [], []⟩]).1.countP Event.isWorkloadWrite = 0 :=
  deref_runs_once_when_no_scopes fetchNoStamp [] [] [⟨webDoc, [], []⟩]
    (by simp)
    (by intro wl hwl; rw [List.mem_singleton] at hwl; subst hwl; rfl)
    rfl

/-- The outcome of the early return out of the scope loop: the result of
joining one scope, appended to the events accumulated so far. -/
def joinOutcome (store : ScopeStore) (evs : List Event) (wlName : String) (s : Doc)
    (r : TypedReference) : ApplyOut :=
  match applyScope wlName s r with
  | .ok none => ⟨evs, store, .ok ()⟩
  | .ok (some s2) => ⟨evs ++ [.updatedScope s2], storeSet store (docRef s2) s2, .ok ()⟩
  | .err e => ⟨evs, store, .err e⟩
  | .crashed => ⟨evs, store, .crashed⟩

/-- C2 (amended): when the workloads before the first workload with attached
scopes all succeed and are scope-free, and that workload's traits succeed,
Apply joins exactly the first scope of that workload and returns
immediately: the whole outcome is the join outcome, independent of the
workload's remaining scopes, of all later workloads and of the prior
status — so at most one scope join happens per pass. -/
theorem apply_stops_at_first_scoped_workload (fetchDef : Doc → Option TraitDefinition)
    (store : ScopeStore) (status : List WorkloadStatus)
    (w1 : List Workload) (wl : Workload) (w2 : List Workload)
    (h1 : ∀ x ∈ w1, x.scopes = [] ∧ traitsOk fetchDef x)
    (s : Doc) (ss : List Doc) (hs : wl.scopes = s :: ss) (hT : traitsOk fetchDef wl) :
    Apply fetchDef store status (w1 ++ wl :: w2) =
      joinOutcome store
        (w1.flatMap (workloadEvents fetchDef) ++ workloadEvents fetchDef wl)
        (docName wl.workload) s (workloadRefOf wl) := by
  have hne : w1 ++ wl :: w2 ≠ [] := by simp
  rcases hpt : processTraits fetchDef (workloadRefOf wl) (docName wl.workload) wl.traits
    with ⟨tds, terr⟩
  have hterr : terr = none := by rw [traitsOk, hpt] at hT; exact hT
  subst hterr
  rw [Apply_eq_of_ne_nil fetchDef store status hne,
    applyLoop_append_skip fetchDef w1 h1 (wl :: w2) store]
  cases hA : applyScope (docName wl.workload) s (workloadRefOf wl) with
  | ok os =>
      cases os with
      | none =>
          simp [applyLoop, hpt, hs, hA, joinOutcome, workloadEvents]
      | some s2 =>
          simp [applyLoop, hpt, hs, hA, joinOutcome, workloadEvents, List.append_assoc]
  | err e =>
      simp [applyLoop, hpt, hs, hA, joinOutcome, workloadEvents]
  | crashed =>
      simp [applyLoop, hpt, hs, hA, joinOutcome, workloadEvents]

theorem apply_stops_at_first_scoped_workload_witness :
    Apply fetchNoStamp [] [] ([] ++ webWithHealth :: [⟨dbDoc, [], [otherScopeDoc]⟩]) =
      joinOutcome []
        (([] : List Workload).flatMap (workloadEvents fetchNoStamp) ++
          workloadEvents fetchNoStamp webWithHealth)
        (docName webWithHealth.workload) healthDoc (workloadRefOf webWithHealth) :=
  apply_stops_at_first_scoped_workload fetchNoStamp [] [] [] webWithHealth
    [⟨dbDoc, [], [otherScopeDoc]⟩]
    (fun x hx => absurd hx (List.not_mem_nil x))
    healthDoc [] rfl rfl

/-- The events of the first workload of the loop are in the loop's trace
whenever its traits process cleanly, whatever happens afterwards. -/
theorem applyLoop_head_events (fetchDef : Doc → Option TraitDefinition) (wl : Workload)
    (w2 : List Workload) (store : ScopeStore) (hT : traitsOk fetchDef wl) :
    ∀ e ∈ workloadEvents fetchDef wl, e ∈ (applyLoop fetchDef (wl :: w2) store).1 := by
  intro e he
  rcases hpt : processTraits fetchDef (workloadRefOf wl) (docName wl.workload) wl.traits
    with ⟨tds, terr⟩
  have hterr : terr = none := by rw [traitsOk, hpt] at hT; exact hT
  subst hterr
  have he2 : e ∈ Event.wroteWorkload wl.workload :: tds.map Event.wroteTrait := by
    rw [workloadEvents, hpt] at he
    exact he
  rw [applyLoop]
  simp only [hpt]
  rcases hsc : wl.scopes with _ | ⟨s, ss⟩
  · rcases applyLoop fetchDef w2 store with ⟨evs2, store2, r⟩
    exact List.mem_append_left _ he2
  · cases hA : applyScope (docName wl.workload) s (workloadRefOf wl) with
    | ok os =>
        cases os with
        | none => simp only [hA]; exact he2
        | some s2 => simp only [hA]; exact List.mem_append_left _ he2
    | err er => simp only [hA]; exact he2
    | crashed => simp only [hA]; exact he2

/-- Apply's trace always retains the trace of the per-workload loop as a
prefix, whether or not the loop completed. -/
theorem apply_trace_keeps_loop_events (fetchDef : Doc → Option TraitDefinition)
    (store : ScopeStore) (status : List WorkloadStatus) {w : List Workload} (hw : w ≠ []) :
    ∀ e ∈ (applyLoop fetchDef w store).1, e ∈ (Apply fetchDef store status w).trace := by
  intro e he
  rw [Apply_eq_of_ne_nil fetchDef store status hw]
  rcases hL : applyLoop fetchDef w store with ⟨evs, store2, r⟩
  rw [hL] at he
  cases r with
  | some r2 => exact he
  | none =>
      rcases dereferenceScope store2 status w with ⟨evs2, store3, r2⟩
      exact List.mem_append_left _ he

/-- C5 (amended): for every trait of a workload that Apply actually
processes — the workloads before the first one with attached scopes, and
that workload itself — whose resolved definition requests a stamp, the
stamped trait document is applied: it appears as a trait write in the trace
and its value at the requested field path is exactly the owning workload's
TypedReference. -/
theorem trait_stamped_for_processed_workloads (fetchDef : Doc → Option TraitDefinition)
    (store : ScopeStore) (status : List WorkloadStatus)
    (w1 : List Workload) (wl : Workload) (w2 : List Workload) (t : Doc) (td : TraitDefinition)
    (h1 : ∀ x ∈ w1, x.scopes = [] ∧ traitsOk fetchDef x)
    (hT : traitsOk fetchDef wl) (ht : t ∈ wl.traits) (hdef : fetchDef t = some td)
    (hp : td.workloadRefPath ≠ []) :
    ∃ d, setPath t td.workloadRefPath (refToJSON (workloadRefOf wl)) = some d ∧
      Event.wroteTrait d ∈ (Apply fetchDef store status (w1 ++ wl :: w2)).trace ∧
      getPath d td.workloadRefPath = some (refToJSON (workloadRefOf wl)) := by
  obtain ⟨d, hset, hmem⟩ := processTraits_mem hT ht hdef hp
  refine ⟨d, hset, ?_, setPath_getPath hset⟩
  have hne : w1 ++ wl :: w2 ≠ [] := by simp
  apply apply_trace_keeps_loop_events fetchDef store status hne
  rw [applyLoop_append_skip fetchDef w1 h1 (wl :: w2) store]
  apply List.mem_append_right
  apply applyLoop_head_events fetchDef wl w2 store hT
  rw [workloadEvents]
  exact List.mem_cons_of_mem _ (List.mem_map_of_mem Event.wroteTrait hmem)

theorem trait_stamped_for_processed_workloads_witness :
    ∃ d, setPath scalerDoc ["spec", "targetRef"]
        (refToJSON (workloadRefOf ⟨dbDoc, [scalerDoc], [otherScopeDoc]⟩)) = some d ∧
      Event.wroteTrait d ∈ (Apply fetchStamp [] []
        ([] ++ (⟨dbDoc, [scalerDoc], [otherScopeDoc]⟩ : Workload) :: [])).trace ∧
      getPath d ["spec", "targetRef"] =
        some (refToJSON (workloadRefOf ⟨dbDoc, [scalerDoc], [otherScopeDoc]⟩)) :=
  trait_stamped_for_processed_workloads fetchStamp [] [] []
    ⟨dbDoc, [scalerDoc], [otherScopeDoc]⟩ [] scalerDoc ⟨["spec", "targetRef"]⟩
    (fun x hx => absurd hx (List.not_mem_nil x))
    rfl (List.mem_cons_self _ _) rfl (by simp)

end OamApply
